import Mathlib

/-!
# Verification of the baumkuchen template-substitution engine

A shallow embedding of `src/main.rs` (the static-site component expander).
Rust strings are modelled as `List Char` (abbreviated `Str`), the xot
document tree as the inductive `Node`, and the xot name-interning table as a
`List Str` of interned names.  Functions that can panic in Rust (`unwrap`,
`expect`, `assert!`) return `Option`, with `none` modelling the panic.
Diagnostics printed with `println!` are modelled, where a claim depends on
them, as an explicit list of warnings returned alongside the value.
`debug_assert!` statements (compiled out in release builds) are not modelled.
-/

/-- Rust `String` / `&str`, modelled as a list of characters. -/
abbrev Str := List Char

/-- Convert a Lean string literal to the `Str` model. -/
def str (s : String) : Str := s.toList

/-- The character class of the `||` expression regex
`^([a-zA-Z0-9_\-\.]+)\|\|([a-zA-Z0-9_\-\.]+)$` (src/main.rs:17). -/
def isOrClass (c : Char) : Bool :=
  c.isAlpha || c.isDigit || c = '_' || c = '-' || c = '.'

/-- The character class of the `${...}` expansion regex
`\$\{([a-zA-Z0-9_\-\.\|]+)}` (src/main.rs:16). -/
def isDollarClass (c : Char) : Bool :=
  isOrClass c || c = '|'

/-- `regex_or_expr.captures` (src/main.rs:17, used at src/main.rs:179):
matches the whole expression against
`^([a-zA-Z0-9_\-\.]+)\|\|([a-zA-Z0-9_\-\.]+)$` and returns the two capture
groups.  Because `|` is not in the class, the greedy first group is exactly
the run of class characters before the first `|`, so the regex matches iff
the string is `A || B` with both sides non-empty runs of class characters. -/
def orSplit (s : Str) : Option (Str × Str) :=
  let p := s.takeWhile isOrClass
  let r := s.dropWhile isOrClass
  match p, r with
  | _ :: _, '|' :: '|' :: q =>
      if q ≠ [] ∧ q.all isOrClass then some (p, r.drop 2) else none
  | _, _ => none

/-- Rust `str::strip_prefix`. -/
def stripPre : Str → Str → Option Str
  | [], s => some s
  | _ :: _, [] => none
  | p :: ps, c :: cs => if p = c then stripPre ps cs else none

/-- `xot.attributes(node).get(id)` for a name: lookup in an ordered
attribute map with unique keys, modelled as an association list. -/
def lookupAttr : List (Str × Str) → Str → Option Str
  | [], _ => none
  | (k, v) :: rest, key => if k = key then some v else lookupAttr rest key

/-- A diagnostic printed to stdout.  Only the warning relevant to the claims
is modelled: the "unrecognized expression" warning of src/main.rs:204. -/
inductive Warning where
  | unrecognizedExpression (expr : Str)
deriving DecidableEq

theorem orSplit_some_length {s a b : Str} (h : orSplit s = some (a, b)) :
    a.length < s.length ∧ b.length < s.length := by
  unfold orSplit at h
  rcases hp : s.takeWhile isOrClass with _ | ⟨c, p'⟩ <;>
    rcases hr : s.dropWhile isOrClass with _ | ⟨d, r'⟩ <;>
    simp [hp, hr] at h
  by_cases hd : d = '|'
  · subst hd
    rcases hr' : r' with _ | ⟨e, r''⟩
    · simp [hr'] at h
    · by_cases he : e = '|'
      · subst he
        simp [hr'] at h
        rcases h with ⟨⟨hne, hall⟩, ha, hb⟩
        have hsplit : s = s.takeWhile isOrClass ++ s.dropWhile isOrClass :=
          (List.takeWhile_append_dropWhile (p := isOrClass) (l := s)).symm
        rw [hp, hr, hr'] at hsplit
        subst ha; subst hb
        have hlen := congrArg List.length hsplit
        simp at hlen
        have h1 : (c :: p').length = p'.length + 1 := by simp
        constructor <;> omega
      · simp [hr', he] at h
  · simp_all

/-- `evaluate_expression` (src/main.rs:169..206).  Returns the value and the
warnings printed while evaluating.  The context's `file_path` is `fp`; the
invocation element's attribute map is `attrs`.  The `self.xyz` branch reads
`xot.attributes(invocation)`, which yields `None` both when the name `xyz`
was never interned and when the invocation lacks the attribute, so it is
modelled directly as an association-list lookup; the missing-attribute
`println!` is commented out in the source (src/main.rs:196) and so emits no
warning. -/
def evaluate_expression (fp : Str) (attrs : List (Str × Str)) (expr : Str) :
    Str × List Warning :=
  if expr = str "self.filepath" then (fp, [])
  else
    match h : orSplit expr with
    | some (a, b) =>
        let av := evaluate_expression fp attrs a
        if av.1 ≠ [] then av
        else
          let bv := evaluate_expression fp attrs b
          (bv.1, av.2 ++ bv.2)
    | none =>
        match stripPre (str "self.") expr with
        | some attrName =>
            match lookupAttr attrs attrName with
            | some v => (v, [])
            | none => ([], [])
        | none => ([], [Warning.unrecognizedExpression expr])
termination_by expr.length
decreasing_by
  · exact (orSplit_some_length h).1
  · exact (orSplit_some_length h).2

/-- The match attempt of `regex_dollar_expansion` at one position
(src/main.rs:16): given the characters after a `$`, succeed when they
start with `{`, a non-empty run of class characters, and `}`; return the
captured content and the remaining characters after the `}`. -/
def dollarMatch : Str → Option (Str × Str)
  | '{' :: r =>
      if r.takeWhile isDollarClass ≠ [] ∧
          (r.dropWhile isDollarClass).head? = some '}' then
        some (r.takeWhile isDollarClass, (r.dropWhile isDollarClass).drop 1)
      else none
  | _ => none

theorem dollarMatch_some_length {s content tail : Str}
    (h : dollarMatch s = some (content, tail)) : tail.length < s.length := by
  rcases s with _ | ⟨c, r⟩
  · simp [dollarMatch] at h
  · by_cases hc : c = '{'
    · subst hc
      simp only [dollarMatch] at h
      by_cases hcond : r.takeWhile isDollarClass ≠ [] ∧
          (r.dropWhile isDollarClass).head? = some '}'
      · rw [if_pos hcond] at h
        simp at h
        obtain ⟨h1, h2⟩ := h
        have hd : ((r.dropWhile isDollarClass).drop 1).length ≤ r.length := by
          have h3 : (r.dropWhile isDollarClass).length ≤ r.length :=
            (List.dropWhile_suffix isDollarClass).sublist.length_le
          have h4 := List.length_drop 1 (r.dropWhile isDollarClass)
          omega
        subst h2
        have h8 : (r.dropWhile isDollarClass).length ≤ r.length :=
          (List.dropWhile_suffix isDollarClass).sublist.length_le
        have h7 : (r.dropWhile isDollarClass).tail.length =
            (r.dropWhile isDollarClass).length - 1 := by simp
        simp only [List.length_cons, List.drop_one]
        omega
      · rw [if_neg hcond] at h
        simp at h
    · have : dollarMatch (c :: r) = none := by
        rcases r with _ | _ <;> simp [dollarMatch, hc]
      rw [this] at h
      simp at h

/-- `expand_string` (src/main.rs:208..217): `Regex::replace_all` with the
`${...}` regex, scanning left to right; each match is replaced by the value
of `evaluate_expression` on the captured content, and scanning resumes
after the match (the replacement text is never re-scanned).  Returns the
expanded string and the warnings printed along the way. -/
def expand_string (fp : Str) (attrs : List (Str × Str)) : Str → Str × List Warning
  | [] => ([], [])
  | c :: rest =>
      if c = '$' then
        match h : dollarMatch rest with
        | some (content, tail) =>
            let v := evaluate_expression fp attrs content
            let o := expand_string fp attrs tail
            (v.1 ++ o.1, v.2 ++ o.2)
        | none =>
            let o := expand_string fp attrs rest
            (c :: o.1, o.2)
      else
        let o := expand_string fp attrs rest
        (c :: o.1, o.2)
termination_by s => s.length
decreasing_by
  · have := dollarMatch_some_length h
    simp; omega
  · simp
  · simp

/-- The xot document tree (the external tree collaborator): an element with a
tag name, an ordered attribute map (unique keys) and ordered children, a
text node, or a comment node. -/
inductive Node where
  | element (name : Str) (attrs : List (Str × Str)) (children : List Node)
  | text (s : Str)
  | comment (s : Str)

/-- `xot.is_element`. -/
def Node.isElement : Node → Bool
  | .element _ _ _ => true
  | _ => false

/-- `xot.children(node)` (empty for text and comments). -/
def Node.childrenOf : Node → List Node
  | .element _ _ ch => ch
  | _ => []

/-- `xot.attributes(node)` (empty for text and comments). -/
def Node.attrsOf : Node → List (Str × Str)
  | .element _ a _ => a
  | _ => []

/-- Whether a node is an element with the given tag name
(`xot.node_name(child) == Some(id)`). -/
def Node.isElemNamed (nm : Str) : Node → Bool
  | .element n _ _ => n = nm
  | _ => false

/-- Mutual induction principle for `Node` and `List Node`. -/
theorem Node.mutual_induction (P : Node → Prop) (Q : List Node → Prop)
    (hel : ∀ n a ch, Q ch → P (.element n a ch))
    (htx : ∀ s, P (.text s)) (hcm : ∀ s, P (.comment s))
    (hnil : Q []) (hcons : ∀ n l, P n → Q l → Q (n :: l)) :
    (∀ n, P n) ∧ (∀ l, Q l) :=
  ⟨fun n => Node.rec hel htx hcm hnil hcons n,
   fun l => List.rec hnil (fun n l ih => hcons n l (Node.rec hel htx hcm hnil hcons n) ih) l⟩

/-- `xot::Attributes::insert` (used at src/main.rs:113): overwrite an
existing key in place, otherwise append at the end of the ordered map. -/
def insertAttr (attrs : List (Str × Str)) (k v : Str) : List (Str × Str) :=
  if attrs.any (fun p => p.1 = k) then
    attrs.map (fun p => if p.1 = k then (k, v) else p)
  else attrs ++ [(k, v)]

/-- The attribute-propagation loop of `substitute_tag` (src/main.rs:111..114):
insert each (already expanded) original attribute into the replacement's
attribute map.  `xot.attributes_mut` is only ever reached with an element
replacement in this program (the replacement is an element child of the
invocation); on a non-element the loop body would panic in xot, which the
claims never exercise, so the node is returned unchanged. -/
def propagateAttrs (r : Node) (orig : List (Str × Str)) : Node :=
  match r with
  | .element n a ch => .element n (orig.foldl (fun m p => insertAttr m p.1 p.2) a) ch
  | other => other

mutual

/-- `substitute_tag` (src/main.rs:85..122): replace every occurrence of an
element named `tagName` with a clone of `replacement`, propagating the
occurrence's own attributes (expression-expanded against the invocation
context) onto the replacement.  A replaced occurrence is not descended
into: the function returns immediately after `xot.replace`
(src/main.rs:115), so occurrences inside the replacement stay as they are. -/
def substitute_tag (fp : Str) (invAttrs : List (Str × Str)) (tagName : Str)
    (replacement : Node) : Node → Node
  | .element name attrs ch =>
      if name = tagName then
        propagateAttrs replacement
          (attrs.map (fun p => (p.1, (expand_string fp invAttrs p.2).1)))
      else
        .element name attrs (substitute_tag_list fp invAttrs tagName replacement ch)
  | .text s => .text s
  | .comment s => .comment s

/-- The recursion of `substitute_tag` over a node's children
(src/main.rs:117..120). -/
def substitute_tag_list (fp : Str) (invAttrs : List (Str × Str)) (tagName : Str)
    (replacement : Node) : List Node → List Node
  | [] => []
  | c :: rest =>
      substitute_tag fp invAttrs tagName replacement c ::
        substitute_tag_list fp invAttrs tagName replacement rest

end

/-- One item of a compiled regular expression, modelling the fragment of the
`regex` crate's syntax that this development needs: literal characters, `.`,
and `*` applied to one of those atoms. -/
inductive RItem where
  | lit (c : Char)
  | dot
  | star (base : RItem)
deriving DecidableEq

/-- Regex metacharacters of the modelled subset: a pattern containing one of
these outside the positions the parser accepts does not compile. -/
def isRegexMeta (c : Char) : Bool :=
  c = '(' || c = ')' || c = '[' || c = ']' || c = '{' || c = '}' ||
  c = '\\' || c = '+' || c = '?' || c = '|' || c = '^' || c = '$' || c = '*'

/-- Parse the body of a pattern (between the anchors) into items.  A `*` with
no preceding atom, a doubled `*`, and any metacharacter are rejected
(`Regex::new` returns `Err`); this models the regex collaborator on the
subset of patterns this development reasons about — every pattern the
parser accepts is valid for the `regex` crate with the same meaning. -/
def regexParseItems : Str → Option (List RItem)
  | [] => some []
  | [c] =>
      if c = '*' then none
      else if isRegexMeta c then none
      else some [if c = '.' then RItem.dot else RItem.lit c]
  | c :: c2 :: rest2 =>
      if c = '*' then none
      else if isRegexMeta c then none
      else
        let atom := if c = '.' then RItem.dot else RItem.lit c
        if c2 = '*' then
          (regexParseItems rest2).map (fun is => RItem.star atom :: is)
        else
          (regexParseItems (c2 :: rest2)).map (fun is => atom :: is)

/-- `Regex::new` on the anchored pattern built at src/main.rs:238: the
string must be `^` body `$`, and the body must parse. -/
def regexCompile (p : Str) : Option (List RItem) :=
  match p with
  | '^' :: rest =>
      if rest.getLast? = some '$' then regexParseItems rest.dropLast else none
  | _ => none

/-- Whether one atom matches one character. -/
def atomMatch : RItem → Char → Bool
  | .lit c, x => c = x
  | .dot, _ => true
  | .star _, _ => false

/-- Full-string matching of an item list against a string (the pattern is
wrapped in `^`/`$` by `expression_matches_pattern`, so `is_match` is
equivalent to a full match). -/
def itemsMatch : List RItem → Str → Bool
  | [], [] => true
  | [], _ :: _ => false
  | .lit c :: is, x :: xs => c = x && itemsMatch is xs
  | .lit _ :: _, [] => false
  | .dot :: is, _ :: xs => itemsMatch is xs
  | .dot :: _, [] => false
  | .star a :: is, s =>
      itemsMatch is s ||
        match s with
        | [] => false
        | x :: xs => atomMatch a x && itemsMatch (.star a :: is) xs
termination_by is s => is.length + s.length
decreasing_by all_goals first | (simp; omega) | simp

/-- `expression_matches_pattern` (src/main.rs:219..241): evaluate the
expression, expand the pattern, wrap the pattern in `^`/`$`, compile it
(`.expect("Invalid regex")` panics — `none` — when compilation fails) and
test the match. -/
def expression_matches_pattern (fp : Str) (invAttrs : List (Str × Str))
    (exprString patternString : Str) : Option Bool :=
  let exprValue := (evaluate_expression fp invAttrs exprString).1
  let patternValue := (expand_string fp invAttrs patternString).1
  match regexCompile ('^' :: patternValue ++ ['$']) with
  | none => none
  | some items => some (itemsMatch items exprValue)

/-- `substitute_if` (src/main.rs:243..310).  The single attribute is
evaluated as a match condition; zero attributes panic at the
`.expect("msg")` (src/main.rs:253), two or more panic at the `assert!`
(src/main.rs:254) — both modelled as `none`.  Then the children of the
first `then` (resp. `else`) child element are spliced in place of the node,
which is removed in every non-panicking path. -/
def substitute_if (fp : Str) (inv : Node) : Node → Option (List Node)
  | .element _ attrs ch =>
      match attrs with
      | [] => none
      | (exprName, pattern) :: restAttrs =>
          if restAttrs ≠ [] then none
          else
            match expression_matches_pattern fp inv.attrsOf exprName pattern with
            | none => none
            | some condition =>
                let nodeThen := ch.find? (Node.isElemNamed (str "then"))
                let nodeElse := ch.find? (Node.isElemNamed (str "else"))
                if condition then
                  some ((nodeThen.map Node.childrenOf).getD [])
                else
                  some ((nodeElse.map Node.childrenOf).getD [])
  | _ => none

/-- `substitute_attr` (src/main.rs:312..354), for a node named `self.` ++
ATTR.  `self.inner` splices clones of the invocation's children.  Otherwise:
if ATTR is not an interned name (`xot.name` is `None`, src/main.rs:335) the
function warns and returns with the node still in place; if the invocation
carries the attribute, the node is replaced by a text node holding the
value when it is non-empty, or just detached when the value is empty; if
the invocation does not carry the attribute, the node is also left in
place (the `if let` at src/main.rs:343 falls through without detaching). -/
def substitute_attr (names : List Str) (inv : Node) : Node → Option (List Node)
  | .element name attrs ch =>
      match stripPre (str "self.") name with
      | none => none
      | some attrName =>
          if attrName = str "inner" then
            some inv.childrenOf
          else if ¬ names.contains attrName then
            some [.element name attrs ch]
          else
            match lookupAttr inv.attrsOf attrName with
            | some attrVal =>
                if attrVal ≠ [] then some [.text attrVal] else some []
            | none => some [.element name attrs ch]
  | _ => none

/-- `substitute_foreach` (src/main.rs:124..167), for a node named
`foreachchild.` ++ VAR.  If VAR is not an interned name the function warns
and returns with the node still in place (src/main.rs:138..144).  Otherwise
the loop body is the first element child (`.unwrap()` at src/main.rs:150
panics — `none` — when there is none), and for each element child of the
invocation a clone of the body with VAR-tags substituted is inserted before
the node; text and comment children of the invocation are skipped
(src/main.rs:154..157).  The node itself is then detached. -/
def substitute_foreach (names : List Str) (fp : Str) (inv : Node) :
    Node → Option (List Node)
  | .element name attrs ch =>
      match stripPre (str "foreachchild.") name with
      | none => none
      | some loopVar =>
          if ¬ names.contains loopVar then
            some [.element name attrs ch]
          else
            match ch.find? Node.isElement with
            | none => none
            | some body =>
                some ((inv.childrenOf.filter Node.isElement).map
                  (fun invChild => substitute_tag fp inv.attrsOf loopVar invChild body))
  | _ => none

mutual

/-- `expand_all_attr_strings` (src/main.rs:358..382): expression-expand
every attribute value of the node and all of its descendants against the
invocation context. -/
def expand_all_attr_strings (fp : Str) (invAttrs : List (Str × Str)) : Node → Node
  | .element name attrs ch =>
      .element name (attrs.map (fun p => (p.1, (expand_string fp invAttrs p.2).1)))
        (expand_all_attr_strings_list fp invAttrs ch)
  | .text s => .text s
  | .comment s => .comment s

/-- The recursion of `expand_all_attr_strings` over children
(src/main.rs:376..379). -/
def expand_all_attr_strings_list (fp : Str) (invAttrs : List (Str × Str)) :
    List Node → List Node
  | [] => []
  | c :: rest =>
      expand_all_attr_strings fp invAttrs c ::
        expand_all_attr_strings_list fp invAttrs rest

end

/-- The tag dispatch at the end of `substitute_invocation`
(src/main.rs:408..423), applied to the element after its children have been
substituted: `foreachchild.*` first, then `if`, then `self.*`, otherwise
the element is left as is. -/
def substitute_invocation_tag (names : List Str) (fp : Str) (inv : Node)
    (name : Str) (attrs : List (Str × Str)) (ch : List Node) : Option (List Node) :=
  if (stripPre (str "foreachchild.") name).isSome then
    substitute_foreach names fp inv (.element name attrs ch)
  else if name = str "if" then
    substitute_if fp inv (.element name attrs ch)
  else if (stripPre (str "self.") name).isSome then
    substitute_attr names inv (.element name attrs ch)
  else
    some [.element name attrs ch]

mutual

/-- `substitute_invocation` (src/main.rs:386..424): text and comments pass
through unmodified; for an element, first recursively substitute every
child (innermost first), then dispatch on the tag name.  The result is the
list of nodes that replace the node in its parent (panics propagate as
`none`). -/
def substitute_invocation (names : List Str) (fp : Str) (inv : Node) :
    Node → Option (List Node)
  | .element name attrs ch =>
      match substitute_invocation_list names fp inv ch with
      | none => none
      | some ch' => substitute_invocation_tag names fp inv name attrs ch'
  | .text s => some [.text s]
  | .comment s => some [.comment s]

/-- The child loop of `substitute_invocation` (src/main.rs:401..406): each
child is replaced in place by the nodes it produces. -/
def substitute_invocation_list (names : List Str) (fp : Str) (inv : Node) :
    List Node → Option (List Node)
  | [] => some []
  | c :: rest =>
      match substitute_invocation names fp inv c with
      | none => none
      | some out =>
          match substitute_invocation_list names fp inv rest with
          | none => none
          | some rest' => some (out ++ rest')

end

/-- `ElementDefinition::instantiate` (src/main.rs:460..475): clone the
definition's `<throwaway>` wrapper element, expand all attribute strings
against the invocation, run structural substitution inside it, and return
its children.  The wrapper's tag name `throwaway` matches none of the
structural constructs, so `substitute_invocation` always returns it as a
single element; the catch-all arm is unreachable for definitions produced
by `ElementDefinition::from_file`. -/
def instantiate (names : List Str) (fp : Str) (defn : Node) (inv : Node) :
    Option (List Node) :=
  let b := expand_all_attr_strings fp inv.attrsOf defn
  match substitute_invocation names fp inv b with
  | some [.element _ _ ch] => some ch
  | _ => none

/-- `library.elements().get(&element_name)` (src/main.rs:517): the component
library, a map from tag name to the definition's wrapper node, modelled as
an association list. -/
def libGet : List (Str × Node) → Str → Option Node
  | [], _ => none
  | (k, v) :: rest, key => if k = key then some v else libGet rest key

mutual

/-- `substitute` (src/main.rs:504..547): non-elements report no change.  An
element whose tag matches a library definition is instantiated (the
`.expect` at src/main.rs:520 panics — `none` — if instantiation fails), the
instantiation is spliced in its place, the node is detached, and the child
loop then runs over the detached node's own children; the spliced nodes are
left for the caller's loop.  An element with no library match runs the
child loop in place.  The child loop re-scans the children from the start
every time some child reports a change; `fuel` bounds the number of such
re-scans (the Rust loop can diverge on a self-referential library; running
out of fuel is `none`). -/
def substitute (lib : List (Str × Node)) (names : List Str) (fp : Str) :
    Nat → Node → Option (List Node × Bool)
  | fuel, .element name attrs ch =>
      match libGet lib name with
      | some defn =>
          match instantiate names fp defn (.element name attrs ch) with
          | none => none
          | some inst =>
              match substitute_fixpoint lib names fp fuel ch with
              | none => none
              | some _ => some (inst, true)
      | none =>
          match substitute_fixpoint lib names fp fuel ch with
          | none => none
          | some (ch', changed) => some ([.element name attrs ch'], changed)
  | _, n => some ([n], false)
termination_by fuel n => (fuel, sizeOf n, 0)

/-- The `loop` of `substitute` (src/main.rs:531..544): run one scan over the
children; if it reported a change, start over on the new child list,
otherwise stop.  Returns the final child list and whether any scan ever
changed anything. -/
def substitute_fixpoint (lib : List (Str × Node)) (names : List Str) (fp : Str) :
    Nat → List Node → Option (List Node × Bool)
  | 0, ch =>
      match substitute_scan lib names fp 0 ch with
      | none => none
      | some (ch', changed) =>
          if changed then none
          else some (ch', false)
  | f + 1, ch =>
      match substitute_scan lib names fp (f + 1) ch with
      | none => none
      | some (ch', changed) =>
          if changed then
            match substitute_fixpoint lib names fp f ch' with
            | none => none
            | some (ch'', _) => some (ch'', true)
          else some (ch', false)
termination_by fuel ch => (fuel, sizeOf ch, 2)

/-- One `for child in children` scan (src/main.rs:533..539): substitute each
child in order, splicing its output in place, and stop (`break`) at the
first child that reports a change. -/
def substitute_scan (lib : List (Str × Node)) (names : List Str) (fp : Str) :
    Nat → List Node → Option (List Node × Bool)
  | _, [] => some ([], false)
  | fuel, c :: rest =>
      match substitute lib names fp fuel c with
      | none => none
      | some (out, changed) =>
          if changed then some (out ++ rest, true)
          else
            match substitute_scan lib names fp fuel rest with
            | none => none
            | some (rest', c2) => some (out ++ rest', c2)
termination_by fuel ch => (fuel, sizeOf ch, 1)

end

/-- ASCII model of `char::is_whitespace` / `str::split_whitespace`'s
whitespace notion (the claims do not depend on exotic Unicode whitespace). -/
def isWS (c : Char) : Bool :=
  c = ' ' || c = '\t' || c = '\n' || c = '\r'

/-- Worker for `split_whitespace`: accumulate the current word (reversed). -/
def splitWSGo (cur : Str) : Str → List Str
  | [] => if cur = [] then [] else [cur.reverse]
  | c :: rest =>
      if isWS c then
        if cur = [] then splitWSGo [] rest
        else cur.reverse :: splitWSGo [] rest
      else splitWSGo (c :: cur) rest

/-- Rust `str::split_whitespace`: the whitespace-separated words of a
string, empty runs skipped. -/
def splitWS (s : Str) : List Str := splitWSGo [] s

/-- The text-trimming step of `minify` (src/main.rs:33..72): collapse each
whitespace run to a single space (src/main.rs:37..48), re-add one leading
space when a previous sibling exists and the original text started with
whitespace (src/main.rs:52..54), likewise one trailing space
(src/main.rs:59..61), and remove the node outright when the result is all
whitespace (src/main.rs:66..68). -/
def minifyText (hasPrev hasNext : Bool) (s : Str) : Option Str :=
  let trimmed := List.intercalate (str " ") (splitWS s)
  let trimmed :=
    if hasPrev ∧ (s.head?.map isWS).getD false then ' ' :: trimmed else trimmed
  let trimmed :=
    if hasNext ∧ (s.getLast?.map isWS).getD false then trimmed ++ [' '] else trimmed
  if trimmed.all isWS then none else some trimmed

mutual

/-- `minify` (src/main.rs:28..81) on one node, given whether the node
currently has a previous sibling and a next sibling: comments are removed,
text is trimmed or removed by `minifyText`, and elements recurse into
their children. -/
def minify (hasPrev hasNext : Bool) : Node → Option Node
  | .comment _ => none
  | .text s =>
      match minifyText hasPrev hasNext s with
      | none => none
      | some t => some (.text t)
  | .element name attrs ch => some (.element name attrs (minifyList false ch))

/-- The child loop of `minify` (src/main.rs:75..78): children are processed
in order; `xot.previous_sibling` sees only the earlier siblings that
survived, while `xot.next_sibling` still sees the not-yet-processed later
siblings, so a node's `hasNext` is simply whether the original list
continues. -/
def minifyList (hasPrev : Bool) : List Node → List Node
  | [] => []
  | c :: rest =>
      match minify hasPrev (!rest.isEmpty) c with
      | none => minifyList hasPrev rest
      | some c' => c' :: minifyList true rest

end

/-- The element skeleton of a tree: tag names, attributes and the element
nesting structure, with text and comment nodes erased. -/
inductive Skel where
  | mk (name : Str) (attrs : List (Str × Str)) (children : List Skel)

mutual

/-- The skeleton of one node (`none` for text and comments). -/
def skelOf : Node → Option Skel
  | .element name attrs ch => some (.mk name attrs (skelsOf ch))
  | _ => none

/-- The skeletons of a node list, in document order. -/
def skelsOf : List Node → List Skel
  | [] => []
  | c :: rest =>
      match skelOf c with
      | none => skelsOf rest
      | some s => s :: skelsOf rest

end

mutual

/-- The number of comment nodes in a subtree. -/
def commentCount : Node → Nat
  | .comment _ => 1
  | .text _ => 0
  | .element _ _ ch => commentCountList ch

/-- The number of comment nodes in a list of subtrees. -/
def commentCountList : List Node → Nat
  | [] => 0
  | c :: rest => commentCount c + commentCountList rest

end

mutual

/-- The number of elements named `tagName` in a subtree. -/
def countTag (tagName : Str) : Node → Nat
  | .element name _ ch =>
      (if name = tagName then 1 else 0) + countTagList tagName ch
  | _ => 0

/-- The number of elements named `tagName` in a list of subtrees. -/
def countTagList (tagName : Str) : List Node → Nat
  | [] => 0
  | c :: rest => countTag tagName c + countTagList tagName rest

end

mutual

/-- Whether no element tag in the subtree has a library definition. -/
def noLibMatch (lib : List (Str × Node)) : Node → Bool
  | .element name _ ch => (libGet lib name).isNone && noLibMatchList lib ch
  | _ => true

/-- `noLibMatch` over a list of subtrees. -/
def noLibMatchList (lib : List (Str × Node)) : List Node → Bool
  | [] => true
  | c :: rest => noLibMatch lib c && noLibMatchList lib rest

end

mutual

/-- Whether the subtree still contains a custom tag of the substitution
language: an element named `if`, or one whose name starts with `self.` or
`foreachchild.`. -/
def hasCustomTag : Node → Bool
  | .element name _ ch =>
      name = str "if" || (stripPre (str "self.") name).isSome ||
        (stripPre (str "foreachchild.") name).isSome || hasCustomTagList ch
  | _ => false

/-- `hasCustomTag` over a list of subtrees. -/
def hasCustomTagList : List Node → Bool
  | [] => false
  | c :: rest => hasCustomTag c || hasCustomTagList rest

end

theorem takeWhile_append_all {α} {p : α → Bool} {A : List α} (r : List α)
    (hA : ∀ a ∈ A, p a) : (A ++ r).takeWhile p = A ++ r.takeWhile p := by
  induction A with
  | nil => simp
  | cons c cs ih =>
      have hc : p c := hA c (by simp)
      simp [List.takeWhile_cons, hc]
      exact ih (fun a ha => hA a (by simp [ha]))

theorem dropWhile_append_all {α} {p : α → Bool} {A : List α} (r : List α)
    (hA : ∀ a ∈ A, p a) : (A ++ r).dropWhile p = r.dropWhile p := by
  induction A with
  | nil => simp
  | cons c cs ih =>
      have hc : p c := hA c (by simp)
      simp [List.dropWhile_cons, hc]
      exact ih (fun a ha => hA a (by simp [ha]))

theorem stripPre_append (p s : Str) : stripPre p (p ++ s) = some s := by
  induction p with
  | nil => simp [stripPre]
  | cons c cs ih => simp [stripPre, ih]

theorem orSplit_all_class {s : Str} (h : ∀ c ∈ s, isOrClass c) :
    orSplit s = none := by
  have hd : s.dropWhile isOrClass = [] := by
    rw [List.dropWhile_eq_nil_iff]
    exact h
  unfold orSplit
  rw [hd]
  rcases s.takeWhile isOrClass with _ | _ <;> simp

/-- The `||` regex matches `A ++ "||" ++ B` with groups `A` and `B` whenever
both sides are non-empty and drawn from the class. -/
theorem orSplit_append {A B : Str} (hA : A ≠ []) (hB : B ≠ [])
    (hAc : ∀ a ∈ A, isOrClass a) (hBc : ∀ b ∈ B, isOrClass b) :
    orSplit (A ++ '|' :: '|' :: B) = some (A, B) := by
  unfold orSplit
  rw [takeWhile_append_all _ hAc, dropWhile_append_all _ hAc]
  have ht : List.takeWhile isOrClass ('|' :: '|' :: B) = [] := by
    simp [List.takeWhile_cons, isOrClass]
  have hd : List.dropWhile isOrClass ('|' :: '|' :: B) = '|' :: '|' :: B := by
    simp [List.dropWhile_cons, isOrClass]
  rw [ht, hd]
  rcases hAe : A with _ | ⟨a, as⟩
  · exact absurd hAe hA
  · simp [hB, List.all_eq_true.mpr hBc]

theorem evaluate_self_atom (fp : Str) (attrs : List (Str × Str)) (x : Str)
    (hx : x ≠ str "filepath") (hxc : ∀ c ∈ x, isOrClass c) :
    evaluate_expression fp attrs (str "self." ++ x) =
      match lookupAttr attrs x with
      | some v => (v, [])
      | none => ([], []) := by
  have hne : str "self." ++ x ≠ str "self.filepath" := by
    have : str "self.filepath" = str "self." ++ str "filepath" := by rfl
    rw [this]
    simp [hx]
  have hor : orSplit (str "self." ++ x) = none := by
    apply orSplit_all_class
    intro c hc
    rcases List.mem_append.mp hc with h | h
    · have hcc : c = 's' ∨ c = 'e' ∨ c = 'l' ∨ c = 'f' ∨ c = '.' := by
        simpa [str] using h
      rcases hcc with rfl | rfl | rfl | rfl | rfl <;> decide
    · exact hxc c h
  rw [evaluate_expression]
  rw [if_neg hne]
  split
  · next a b heq => rw [hor] at heq; exact absurd heq (by simp)
  · rw [stripPre_append]

theorem evaluate_or_unfold (fp : Str) (attrs : List (Str × Str)) {A B : Str}
    (hA : A ≠ []) (hB : B ≠ [])
    (hAc : ∀ a ∈ A, isOrClass a) (hBc : ∀ b ∈ B, isOrClass b) :
    evaluate_expression fp attrs (A ++ '|' :: '|' :: B) =
      (if (evaluate_expression fp attrs A).1 ≠ [] then evaluate_expression fp attrs A
       else ((evaluate_expression fp attrs B).1,
         (evaluate_expression fp attrs A).2 ++ (evaluate_expression fp attrs B).2)) := by
  have hne : A ++ '|' :: '|' :: B ≠ str "self.filepath" := by
    intro h
    have hmem : '|' ∈ A ++ '|' :: '|' :: B := by simp
    rw [h] at hmem
    revert hmem
    decide
  rw [evaluate_expression, if_neg hne]
  split
  · next a b heq =>
      rw [orSplit_append hA hB hAc hBc] at heq
      simp at heq
      obtain ⟨ha, hb⟩ := heq
      subst ha; subst hb
      rfl
  · next heq =>
      rw [orSplit_append hA hB hAc hBc] at heq
      exact absurd heq (by simp)

/-- **C6**: for every expression of the form `A||B` (exactly one `||`, both
sides non-empty strings over `[A-Za-z0-9_.-]`), `evaluate_expression`
returns the value of `A` when that value is non-empty and the value of `B`
otherwise; and when both sides are `self.<attr>` references to absent
attributes the overall value is the empty string (evaluation is total, so
the run does not abort). -/
theorem C6_or_default_expression (fp : Str) (attrs : List (Str × Str)) (A B : Str)
    (hA : A ≠ []) (hB : B ≠ [])
    (hAc : ∀ a ∈ A, isOrClass a) (hBc : ∀ b ∈ B, isOrClass b) :
    ((evaluate_expression fp attrs (A ++ '|' :: '|' :: B)).1 =
      if (evaluate_expression fp attrs A).1 ≠ [] then (evaluate_expression fp attrs A).1
      else (evaluate_expression fp attrs B).1) ∧
    (∀ x y, A = str "self." ++ x → B = str "self." ++ y →
      x ≠ str "filepath" → y ≠ str "filepath" →
      lookupAttr attrs x = none → lookupAttr attrs y = none →
      (evaluate_expression fp attrs (A ++ '|' :: '|' :: B)).1 = []) := by
  have hmain := evaluate_or_unfold fp attrs hA hB hAc hBc
  constructor
  · rw [hmain]
    by_cases hav : (evaluate_expression fp attrs A).1 ≠ [] <;> simp [hav]
  · intro x y hxA hyB hx hy hlx hly
    have hxc : ∀ c ∈ x, isOrClass c := by
      intro c hc
      exact hAc c (by rw [hxA]; simp [hc])
    have hyc : ∀ c ∈ y, isOrClass c := by
      intro c hc
      exact hBc c (by rw [hyB]; simp [hc])
    have hevA : evaluate_expression fp attrs A = ([], []) := by
      rw [hxA, evaluate_self_atom fp attrs x hx hxc, hlx]
    have hevB : evaluate_expression fp attrs B = ([], []) := by
      rw [hyB, evaluate_self_atom fp attrs y hy hyc, hly]
    rw [hmain, hevA, hevB]
    simp

/-- Witness for **C6** at concrete inputs: `${self.title||self.fallback}`
with both attributes absent evaluates to the empty string, and with
`title="T"` present it evaluates to `T`. -/
theorem C6_or_default_expression_witness :
    (evaluate_expression (str "/f") [] (str "self.title||self.fallback")).1 = [] ∧
    (evaluate_expression (str "/f") [(str "title", str "T")]
      (str "self.title||self.fallback")).1 = str "T" := by
  constructor
  · exact (C6_or_default_expression (str "/f") [] (str "self.title")
      (str "self.fallback") (by decide) (by decide) (by decide) (by decide)).2
      (str "title") (str "fallback") rfl rfl (by decide) (by decide) rfl rfl
  · have h := (C6_or_default_expression (str "/f") [(str "title", str "T")]
      (str "self.title") (str "self.fallback")
      (by decide) (by decide) (by decide) (by decide)).1
    have hA : evaluate_expression (str "/f") [(str "title", str "T")]
        (str "self.title") = (str "T", []) := by
      rw [evaluate_expression]; rfl
    rw [hA] at h
    simp at h
    exact h

/-- Scanning a region with no `$` copies it verbatim: no match can start
inside it. -/
theorem expand_no_dollar_append (fp : Str) (attrs : List (Str × Str))
    {p : Str} (t : Str) (hp : '$' ∉ p) :
    expand_string fp attrs (p ++ t) =
      (p ++ (expand_string fp attrs t).1, (expand_string fp attrs t).2) := by
  induction p with
  | nil => simp
  | cons c cs ih =>
      have hc : c ≠ '$' := by
        intro hcontra
        exact hp (by simp [hcontra])
      rw [List.cons_append, expand_string.eq_def]
      simp only [if_neg hc]
      rw [ih (fun hmem => hp (by simp [hmem]))]
      simp

/-- A well-formed `${...}` occurrence matches, capturing the content. -/
theorem dollarMatch_wellformed {content : Str} (rest : Str)
    (hne : content ≠ []) (hcls : ∀ c ∈ content, isDollarClass c) :
    dollarMatch ('{' :: (content ++ '}' :: rest)) = some (content, rest) := by
  have ht : (content ++ '}' :: rest).takeWhile isDollarClass = content := by
    rw [takeWhile_append_all _ hcls]
    simp [List.takeWhile_cons, isDollarClass, isOrClass]
  have hd : (content ++ '}' :: rest).dropWhile isDollarClass = '}' :: rest := by
    rw [dropWhile_append_all _ hcls]
    simp [List.dropWhile_cons, isDollarClass, isOrClass]
  have hrfl : dollarMatch ('{' :: (content ++ '}' :: rest)) =
      (if (content ++ '}' :: rest).takeWhile isDollarClass ≠ [] ∧
          ((content ++ '}' :: rest).dropWhile isDollarClass).head? = some '}' then
        some ((content ++ '}' :: rest).takeWhile isDollarClass,
          ((content ++ '}' :: rest).dropWhile isDollarClass).drop 1)
      else none) := rfl
  rw [hrfl, ht, hd]
  simp [hne]

/-- A step of `expand_string` at a `$` whose following characters match the
`${...}` regex. -/
theorem expand_string_dollar_some (fp : Str) (attrs : List (Str × Str))
    {rest content tail : Str} (h : dollarMatch rest = some (content, tail)) :
    expand_string fp attrs ('$' :: rest) =
      ((evaluate_expression fp attrs content).1 ++ (expand_string fp attrs tail).1,
       (evaluate_expression fp attrs content).2 ++ (expand_string fp attrs tail).2) := by
  rw [expand_string.eq_def]
  split
  · rename_i heq
    simp at heq
  · rename_i c0 rest0 heq
    obtain ⟨hc0, hrest0⟩ : c0 = '$' ∧ rest0 = rest := by
      constructor
      · exact (List.cons.injEq _ _ _ _ ▸ heq).1.symm
      · exact (List.cons.injEq _ _ _ _ ▸ heq).2.symm
    subst hc0
    subst hrest0
    rw [if_pos rfl]
    split
    · rename_i content1 tail1 heq2
      rw [h] at heq2
      simp at heq2
      obtain ⟨h1, h2⟩ := heq2
      subst h1; subst h2
      rfl
    · rename_i heq2
      rw [h] at heq2
      exact absurd heq2 (by simp)

/-- **C7**: `${expr}` rewriting is single-pass.  In any string made of a
`$`-free prefix, a recognized `${content}` occurrence and an arbitrary
remainder, `expand_string` emits the prefix verbatim, then the evaluated
value of `content` verbatim — the value is never re-scanned, whatever
characters (including `${`) it contains — and then continues scanning only
in the remainder; the warnings are likewise those of the occurrence
followed by those of the remainder. -/
theorem C7_expand_single_pass (fp : Str) (attrs : List (Str × Str))
    (p content rest : Str) (hp : '$' ∉ p) (hne : content ≠ [])
    (hcls : ∀ c ∈ content, isDollarClass c) :
    expand_string fp attrs (p ++ ('$' :: '{' :: (content ++ '}' :: rest))) =
      (p ++ (evaluate_expression fp attrs content).1 ++ (expand_string fp attrs rest).1,
       (evaluate_expression fp attrs content).2 ++ (expand_string fp attrs rest).2) := by
  have hstep := expand_string_dollar_some fp attrs
    (@dollarMatch_wellformed content rest hne hcls)
  rw [expand_no_dollar_append fp attrs ('$' :: '{' :: (content ++ '}' :: rest)) hp]
  rw [hstep]
  simp

theorem expand_string_nil (fp : Str) (attrs : List (Str × Str)) :
    expand_string fp attrs [] = ([], []) := by
  rw [expand_string.eq_def]

/-- Witness for **C7** at a concrete input: expanding `${self.x}` where the
attribute `x` itself holds the text `${self.x}` yields that text verbatim,
with no warnings — the substituted value is not re-scanned (re-scanning
would recurse forever). -/
theorem C7_expand_single_pass_witness :
    expand_string (str "/f") [(str "x", str "${self.x}")] (str "${self.x}") =
      (str "${self.x}", []) := by
  have h := C7_expand_single_pass (str "/f") [(str "x", str "${self.x}")] []
    (str "self.x") [] (by decide) (by decide) (by decide)
  have hev : evaluate_expression (str "/f") [(str "x", str "${self.x}")]
      (str "self.x") = (str "${self.x}", []) := by
    rw [evaluate_expression]; rfl
  rw [hev, expand_string_nil] at h
  simp at h
  exact h

/-- A step of `expand_string` at a `$` whose following characters do not
match the `${...}` regex: the `$` is emitted and scanning continues with
the very next character. -/
theorem expand_string_dollar_none (fp : Str) (attrs : List (Str × Str))
    {rest : Str} (h : dollarMatch rest = none) :
    expand_string fp attrs ('$' :: rest) =
      ('$' :: (expand_string fp attrs rest).1, (expand_string fp attrs rest).2) := by
  rw [expand_string.eq_def]
  split
  · rename_i heq
    simp at heq
  · rename_i c0 rest0 heq
    obtain ⟨hc0, hrest0⟩ : c0 = '$' ∧ rest0 = rest := by
      constructor
      · exact (List.cons.injEq _ _ _ _ ▸ heq).1.symm
      · exact (List.cons.injEq _ _ _ _ ▸ heq).2.symm
    subst hc0
    subst hrest0
    rw [if_pos rfl]
    split
    · rename_i content1 tail1 heq2
      rw [h] at heq2
      exact absurd heq2 (by simp)
    · rfl

theorem takeWhile_append_of_bad {α} {p : α → Bool} {A : List α} (t : List α)
    (h : ∃ a ∈ A, ¬ p a) :
    (A ++ t).takeWhile p = A.takeWhile p ∧
      (A ++ t).dropWhile p = A.dropWhile p ++ t := by
  induction A with
  | nil => simp at h
  | cons c cs ih =>
      by_cases hc : p c
      · have h' : ∃ a ∈ cs, ¬ p a := by
          obtain ⟨a, ha, hpa⟩ := h
          rcases List.mem_cons.mp ha with rfl | ha'
          · exact absurd hc hpa
          · exact ⟨a, ha', hpa⟩
        obtain ⟨ht, hd⟩ := ih h'
        constructor
        · simp [List.takeWhile_cons, hc, ht]
        · simp [List.dropWhile_cons, hc, hd]
      · constructor
        · simp [List.takeWhile_cons, hc]
        · simp [List.dropWhile_cons, hc]

theorem dropWhile_head_not {α} {p : α → Bool} {l : List α} {d : α} {ds : List α}
    (h : l.dropWhile p = d :: ds) : ¬ p d ∧ d ∈ l := by
  induction l with
  | nil => simp [List.dropWhile] at h
  | cons c cs ih =>
      by_cases hc : p c
      · rw [List.dropWhile_cons, if_pos hc] at h
        obtain ⟨h1, h2⟩ := ih h
        exact ⟨h1, by simp [h2]⟩
      · rw [List.dropWhile_cons, if_neg hc] at h
        obtain ⟨rfl, rfl⟩ : c = d ∧ cs = ds := by
          constructor
          · exact (List.cons.injEq _ _ _ _ ▸ h).1
          · exact (List.cons.injEq _ _ _ _ ▸ h).2
        exact ⟨hc, by simp⟩

/-- A `${...}` whose brace content contains a character outside the class
does not match the expansion regex at that position. -/
theorem dollarMatch_bad_content {content : Str} (rest : Str)
    (hbad : ∃ c ∈ content, ¬ isDollarClass c) (hnb : '}' ∉ content) :
    dollarMatch ('{' :: (content ++ '}' :: rest)) = none := by
  obtain ⟨ht, hd⟩ := takeWhile_append_of_bad (p := isDollarClass) ('}' :: rest) hbad
  have hdrop_ne : content.dropWhile isDollarClass ≠ [] := by
    rw [Ne, List.dropWhile_eq_nil_iff]
    push_neg
    obtain ⟨c, hc, hpc⟩ := hbad
    exact ⟨c, hc, by simpa using hpc⟩
  rcases hdw : content.dropWhile isDollarClass with _ | ⟨d, ds⟩
  · exact absurd hdw hdrop_ne
  · obtain ⟨hpd, hdmem⟩ := dropWhile_head_not hdw
    have hrfl : dollarMatch ('{' :: (content ++ '}' :: rest)) =
        (if (content ++ '}' :: rest).takeWhile isDollarClass ≠ [] ∧
            ((content ++ '}' :: rest).dropWhile isDollarClass).head? = some '}' then
          some ((content ++ '}' :: rest).takeWhile isDollarClass,
            ((content ++ '}' :: rest).dropWhile isDollarClass).drop 1)
        else none) := rfl
    rw [hrfl, if_neg]
    rw [ht, hd, hdw]
    intro hcontra
    have : d = '}' := by simpa using hcontra.2
    exact hnb (this ▸ hdmem)

/-- **C8**: a `${...}` occurrence whose brace content contains a character
outside `[a-zA-Z0-9_\-.|]` is not recognized: `expand_string` leaves the
whole occurrence verbatim in the output and emits no warning for it (the
warnings of the result are exactly those produced beyond the occurrence). -/
theorem C8_unrecognized_expression_verbatim (fp : Str) (attrs : List (Str × Str))
    (content rest : Str) (hbad : ∃ c ∈ content, ¬ isDollarClass c)
    (hnd : '$' ∉ content) (hnb : '}' ∉ content) :
    expand_string fp attrs ('$' :: '{' :: (content ++ '}' :: rest)) =
      ('$' :: '{' :: (content ++ '}' :: (expand_string fp attrs rest).1),
       (expand_string fp attrs rest).2) := by
  have hnone := dollarMatch_bad_content rest hbad hnb
  rw [expand_string_dollar_none fp attrs hnone]
  have hp0 : '$' ∉ '{' :: (content ++ ['}']) := by
    intro hmem
    rcases List.mem_cons.mp hmem with h1 | h1
    · exact absurd h1.symm (by decide)
    · rcases List.mem_append.mp h1 with h2 | h2
      · exact hnd h2
      · simp at h2
  have hsub := expand_no_dollar_append fp attrs (p := '{' :: (content ++ ['}'])) rest hp0
  have harg : ('{' :: (content ++ ['}'])) ++ rest = '{' :: (content ++ '}' :: rest) := by
    simp
  rw [harg] at hsub
  rw [hsub]
  simp

/-- A pattern character that the regex treats as matching exactly itself. -/
def isPlainChar (c : Char) : Bool :=
  !isRegexMeta c && c ≠ '.'

theorem regexParseItems_lits {p : Str} (h : ∀ c ∈ p, isPlainChar c) :
    regexParseItems p = some (p.map RItem.lit) := by
  induction p with
  | nil => rfl
  | cons c rest ih =>
      have hc' : isRegexMeta c = false ∧ c ≠ '.' := by
        have hc := h c (by simp)
        simp [isPlainChar] at hc
        exact hc
      have hcm := hc'.1
      have hcd := hc'.2
      have hcs : c ≠ '*' := by
        intro hcontra
        rw [hcontra] at hcm
        simp [isRegexMeta] at hcm
      have hrest := ih (fun a ha => h a (by simp [ha]))
      rcases rest with _ | ⟨c2, r2⟩
      · rw [regexParseItems]
        simp [hcs, hcm, hcd]
      · have hc2' : isRegexMeta c2 = false ∧ c2 ≠ '.' := by
          have hc2 := h c2 (by simp)
          simp [isPlainChar] at hc2
          exact hc2
        have hc2s : c2 ≠ '*' := by
          intro hcontra
          have := hc2'.1
          rw [hcontra] at this
          simp [isRegexMeta] at this
        rw [regexParseItems]
        rw [if_neg hcs, if_neg (by simp [hcm] : ¬ isRegexMeta c = true)]
        simp only [if_neg hc2s, if_neg hcd]
        rw [hrest]
        simp

theorem getLast_concat_char (p : Str) (a : Char) :
    (p ++ [a]).getLast? = some a := by
  simp

theorem regexCompile_anchored (p : Str) :
    regexCompile ('^' :: p ++ ['$']) = regexParseItems p := by
  have hshape : ('^' :: p) ++ ['$'] = '^' :: (p ++ ['$']) := by simp
  rw [hshape, regexCompile]
  simp

theorem itemsMatch_lits (p v : Str) :
    itemsMatch (p.map RItem.lit) v = decide (v = p) := by
  induction p generalizing v with
  | nil =>
      rcases v with _ | ⟨x, xs⟩ <;> simp [itemsMatch]
  | cons c cs ih =>
      rcases v with _ | ⟨x, xs⟩
      · simp [itemsMatch]
      · rw [List.map_cons]
        rw [show itemsMatch (RItem.lit c :: cs.map RItem.lit) (x :: xs) =
          (c = x && itemsMatch (cs.map RItem.lit) xs) from by rw [itemsMatch]]
        rw [ih xs]
        by_cases hx : x = c <;> simp [hx, eq_comm]

/-- **C5**: `expression_matches_pattern` evaluates the expression, expands
the pattern, wraps the pattern in `^`/`$` anchors and tests the full
expression value against it — for a pattern that expands to plain literal
characters the result is exactly whether the value equals the pattern, so
the value `ab` does not match the pattern `a` — and a pattern whose
anchored form does not compile panics immediately (`none`), aborting the
run. -/
theorem C5_matches_pattern_anchored (fp : Str) (attrs : List (Str × Str)) :
    (∀ exprString patternString,
      (∀ c ∈ (expand_string fp attrs patternString).1, isPlainChar c) →
      expression_matches_pattern fp attrs exprString patternString =
        some (decide ((evaluate_expression fp attrs exprString).1 =
          (expand_string fp attrs patternString).1))) ∧
    (∀ exprString patternString,
      regexCompile ('^' :: (expand_string fp attrs patternString).1 ++ ['$']) = none →
      expression_matches_pattern fp attrs exprString patternString = none) := by
  constructor
  · intro exprString patternString hplain
    simp only [expression_matches_pattern]
    rw [regexCompile_anchored, regexParseItems_lits hplain]
    simp [itemsMatch_lits]
  · intro exprString patternString hnone
    simp only [expression_matches_pattern]
    rw [hnone]

/-- Witness for **C5** at concrete inputs: with `kind="ab"` on the
invocation, `<if self.kind="a">` evaluates to `false` (anchoring — `ab`
does not match pattern `a`), `<if self.kind="ab">` to `true`, and the
invalid pattern `(` panics (`none`). -/
theorem C5_matches_pattern_anchored_witness :
    expression_matches_pattern (str "/f") [(str "kind", str "ab")]
      (str "self.kind") (str "a") = some false ∧
    expression_matches_pattern (str "/f") [(str "kind", str "ab")]
      (str "self.kind") (str "ab") = some true ∧
    expression_matches_pattern (str "/f") [(str "kind", str "ab")]
      (str "self.kind") (str "(") = none := by
  have hev : evaluate_expression (str "/f") [(str "kind", str "ab")]
      (str "self.kind") = (str "ab", []) := by
    rw [evaluate_expression]; rfl
  have hpa : expand_string (str "/f") [(str "kind", str "ab")] (str "a") =
      (str "a", []) := by
    have h := expand_no_dollar_append (str "/f") [(str "kind", str "ab")]
      (p := str "a") [] (by decide)
    rw [expand_string_nil] at h
    simpa using h
  have hpab : expand_string (str "/f") [(str "kind", str "ab")] (str "ab") =
      (str "ab", []) := by
    have h := expand_no_dollar_append (str "/f") [(str "kind", str "ab")]
      (p := str "ab") [] (by decide)
    rw [expand_string_nil] at h
    simpa using h
  have hpp : expand_string (str "/f") [(str "kind", str "ab")] (str "(") =
      (str "(", []) := by
    have h := expand_no_dollar_append (str "/f") [(str "kind", str "ab")]
      (p := str "(") [] (by decide)
    rw [expand_string_nil] at h
    simpa using h
  refine ⟨?_, ?_, ?_⟩
  · have h := (C5_matches_pattern_anchored (str "/f") [(str "kind", str "ab")]).1
      (str "self.kind") (str "a") (by rw [hpa]; decide)
    rw [hpa, hev] at h
    simpa using h
  · have h := (C5_matches_pattern_anchored (str "/f") [(str "kind", str "ab")]).1
      (str "self.kind") (str "ab") (by rw [hpab]; decide)
    rw [hpab, hev] at h
    simpa using h
  · exact (C5_matches_pattern_anchored (str "/f") [(str "kind", str "ab")]).2
      (str "self.kind") (str "(") (by rw [hpp]; rfl)

/-- Counterexample to **C1** as stated: when the referenced attribute is
absent from the invocation context (here: no `title` attribute), the
`<self.title>` node is *not* removed — `substitute_attr` returns with the
node still in place, not the empty splice the claim requires. -/
theorem C1_self_attr_absent_counterexample :
    substitute_attr [] (.element (str "inv") [] [])
      (.element (str "self.title") [] []) =
      some [.element (str "self.title") [] []] ∧
    substitute_attr [] (.element (str "inv") [] [])
      (.element (str "self.title") [] []) ≠ some [] := by
  constructor
  · rfl
  · intro h
    rw [(by rfl : substitute_attr [] (.element (str "inv") [] [])
      (.element (str "self.title") [] []) =
      some [Node.element (str "self.title") [] []])] at h
    simp at h

/-- **C1** (amended): for `<self.ATTR>` with ATTR ≠ "inner": if the
invocation carries ATTR with a non-empty value the node is replaced by a
text node holding that value; if it carries ATTR with an empty value the
node is removed; if ATTR is absent the node is left in place unchanged
(with a warning printed). -/
theorem C1_self_attr_substitution (names : List Str) (inv : Node) (a : Str)
    (attrs : List (Str × Str)) (ch : List Node) (hni : a ≠ str "inner") :
    (∀ v, a ∈ names → lookupAttr inv.attrsOf a = some v → v ≠ [] →
      substitute_attr names inv (.element (str "self." ++ a) attrs ch) =
        some [.text v]) ∧
    (a ∈ names → lookupAttr inv.attrsOf a = some [] →
      substitute_attr names inv (.element (str "self." ++ a) attrs ch) =
        some []) ∧
    (lookupAttr inv.attrsOf a = none →
      substitute_attr names inv (.element (str "self." ++ a) attrs ch) =
        some [.element (str "self." ++ a) attrs ch]) := by
  refine ⟨?_, ?_, ?_⟩
  · intro v hmem hlk hv
    simp only [substitute_attr, stripPre_append]
    rw [if_neg hni, if_neg (by simpa using hmem), hlk]
    simp [hv]
  · intro hmem hlk
    simp only [substitute_attr, stripPre_append]
    rw [if_neg hni, if_neg (by simpa using hmem), hlk]
    simp
  · intro hlk
    by_cases hmem : names.contains a
    · simp only [substitute_attr, stripPre_append]
      rw [if_neg hni, if_neg (by simpa using hmem), hlk]
    · simp only [substitute_attr, stripPre_append]
      rw [if_neg hni, if_pos (by simpa using hmem)]

/-- Witness for the amended **C1** at concrete inputs: `title="T"` gives a
text node `T`; `title=""` removes the node; absent `title` leaves it. -/
theorem C1_self_attr_substitution_witness :
    substitute_attr [str "title"] (.element (str "inv") [(str "title", str "T")] [])
      (.element (str "self.title") [] []) = some [.text (str "T")] ∧
    substitute_attr [str "title"] (.element (str "inv") [(str "title", [])] [])
      (.element (str "self.title") [] []) = some [] ∧
    substitute_attr [str "title"] (.element (str "inv") [] [])
      (.element (str "self.title") [] []) =
      some [.element (str "self.title") [] []] := by
  refine ⟨?_, ?_, ?_⟩
  · exact (C1_self_attr_substitution [str "title"]
      (.element (str "inv") [(str "title", str "T")] []) (str "title") [] []
      (by decide)).1 (str "T") (by decide) rfl (by decide)
  · exact (C1_self_attr_substitution [str "title"]
      (.element (str "inv") [(str "title", [])] []) (str "title") [] []
      (by decide)).2.1 (by decide) rfl
  · exact (C1_self_attr_substitution [str "title"]
      (.element (str "inv") [] []) (str "title") [] [] (by decide)).2.2 rfl

/-- Counterexample to **C2** as stated: an `<if>` node carrying zero
attributes (and likewise one carrying two) makes `substitute_if` panic at
the `.expect`/`assert!` (modelled `none`), aborting the run instead of
printing an advisory warning and continuing. -/
theorem C2_if_attr_count_counterexample :
    substitute_if (str "/f") (.element (str "inv") [] [])
      (.element (str "if") [] []) = none ∧
    substitute_if (str "/f") (.element (str "inv") [] [])
      (.element (str "if") [(str "self.a", str "x"), (str "self.b", str "y")] []) =
      none := by
  constructor <;> rfl

/-- **C2** (amended): an `<if>` node with zero attributes or with more than
one attribute does not produce an advisory warning — it panics (a fatal
abort of the run).  Only the missing `then`/`else` pair is an advisory
warning in `substitute_if`. -/
theorem C2_if_malformed_attrs_panic (fp : Str) (inv : Node)
    (attrs : List (Str × Str)) (ch : List Node)
    (h : attrs = [] ∨ 2 ≤ attrs.length) :
    substitute_if fp inv (.element (str "if") attrs ch) = none := by
  rcases h with rfl | hlen
  · rfl
  · rcases attrs with _ | ⟨⟨k, v⟩, rest⟩
    · simp at hlen
    · rcases rest with _ | ⟨r1, rest2⟩
      · simp at hlen
      · simp [substitute_if]

/-- Witness for the amended **C2**: concrete zero-attribute and
two-attribute `<if>` nodes both panic. -/
theorem C2_if_malformed_attrs_panic_witness :
    substitute_if (str "/g") (.element (str "inv") [] [])
      (.element (str "if") [] [.element (str "then") [] []]) = none ∧
    substitute_if (str "/g") (.element (str "inv") [] [])
      (.element (str "if") [(str "a", str "x"), (str "b", str "y")]
        [.element (str "then") [] []]) = none := by
  constructor
  · exact C2_if_malformed_attrs_panic (str "/g") (.element (str "inv") [] []) []
      [.element (str "then") [] []] (Or.inl rfl)
  · exact C2_if_malformed_attrs_panic (str "/g") (.element (str "inv") [] [])
      [(str "a", str "x"), (str "b", str "y")] [.element (str "then") [] []]
      (Or.inr (by decide))

/-- Counterexample to **C3** as stated: a `<foreachchild.item>` node whose
loop-variable name `item` is not an interned name (nothing in the document
set is named `item`) is *not* removed — `substitute_foreach` warns and
returns with the node still in place, even though the invocation context
here has an element child. -/
theorem C3_foreach_uninterned_counterexample :
    substitute_foreach [] (str "/f")
      (.element (str "inv") [] [.element (str "span") [] []])
      (.element (str "foreachchild.item") [] [.element (str "x") [] []]) =
      some [.element (str "foreachchild.item") [] [.element (str "x") [] []]] ∧
    substitute_foreach [] (str "/f")
      (.element (str "inv") [] [.element (str "span") [] []])
      (.element (str "foreachchild.item") [] [.element (str "x") [] []]) ≠
      some [] := by
  constructor
  · rfl
  · intro h
    rw [(by rfl : substitute_foreach [] (str "/f")
      (.element (str "inv") [] [.element (str "span") [] []])
      (.element (str "foreachchild.item") [] [.element (str "x") [] []]) =
      some [Node.element (str "foreachchild.item") [] [.element (str "x") [] []]])] at h
    simp at h

/-- **C3** (amended): provided the loop-variable name VAR is interned and
the `foreachchild.VAR` node has an element child (its loop body), the node
itself is removed from the output regardless of whether the invocation
context has element children: the output is exactly one substituted clone
of the body per *element* child of the invocation (text and comment
children drive no iteration), and zero element children yield the empty
splice.  When VAR is not interned the node is instead left in place. -/
theorem C3_foreach_iteration (names : List Str) (fp : Str) (inv : Node) (v : Str)
    (attrs : List (Str × Str)) (ch : List Node) (body : Node)
    (hv : v ∈ names) (hbody : ch.find? Node.isElement = some body) :
    (substitute_foreach names fp inv
        (.element (str "foreachchild." ++ v) attrs ch) =
      some ((inv.childrenOf.filter Node.isElement).map
        (fun invChild => substitute_tag fp inv.attrsOf v invChild body))) ∧
    (inv.childrenOf.filter Node.isElement = [] →
      substitute_foreach names fp inv
        (.element (str "foreachchild." ++ v) attrs ch) = some []) := by
  have hmain : substitute_foreach names fp inv
      (.element (str "foreachchild." ++ v) attrs ch) =
      some ((inv.childrenOf.filter Node.isElement).map
        (fun invChild => substitute_tag fp inv.attrsOf v invChild body)) := by
    simp only [substitute_foreach, stripPre_append]
    rw [if_neg (by simpa using hv), hbody]
  exact ⟨hmain, fun hempty => by rw [hmain, hempty]; rfl⟩

/-- Witness for the amended **C3** at concrete inputs: with `item` interned
and body `<li><item/></li>`, an invocation with children
`<span/>, "text", <div/>` yields exactly `<li><span/></li><li><div/></li>`
(the text child drives no iteration, the `foreachchild` node is gone), and
an invocation with no element children yields the empty splice. -/
theorem C3_foreach_iteration_witness :
    substitute_foreach [str "item"] (str "/f")
      (.element (str "inv") []
        [.element (str "span") [] [], .text (str "t"), .element (str "div") [] []])
      (.element (str "foreachchild.item") []
        [.element (str "li") [] [.element (str "item") [] []]]) =
      some [.element (str "li") [] [.element (str "span") [] []],
            .element (str "li") [] [.element (str "div") [] []]] ∧
    substitute_foreach [str "item"] (str "/f")
      (.element (str "inv") [] [.text (str "t")])
      (.element (str "foreachchild.item") []
        [.element (str "li") [] [.element (str "item") [] []]]) = some [] := by
  constructor
  · have h := (C3_foreach_iteration [str "item"] (str "/f")
      (.element (str "inv") []
        [.element (str "span") [] [], .text (str "t"), .element (str "div") [] []])
      (str "item") [] [.element (str "li") [] [.element (str "item") [] []]]
      (.element (str "li") [] [.element (str "item") [] []])
      (by decide) rfl).1
    exact h
  · exact (C3_foreach_iteration [str "item"] (str "/f")
      (.element (str "inv") [] [.text (str "t")])
      (str "item") [] [.element (str "li") [] [.element (str "item") [] []]]
      (.element (str "li") [] [.element (str "item") [] []])
      (by decide) rfl).2 rfl

theorem substitute_tag_element (fp : Str) (invAttrs : List (Str × Str))
    (tagName : Str) (repl : Node) (n : Str) (a : List (Str × Str)) (ch : List Node) :
    substitute_tag fp invAttrs tagName repl (.element n a ch) =
      if n = tagName then
        propagateAttrs repl (a.map (fun p => (p.1, (expand_string fp invAttrs p.2).1)))
      else .element n a (substitute_tag_list fp invAttrs tagName repl ch) := rfl

theorem substitute_tag_list_cons (fp : Str) (invAttrs : List (Str × Str))
    (tagName : Str) (repl : Node) (c : Node) (rest : List Node) :
    substitute_tag_list fp invAttrs tagName repl (c :: rest) =
      substitute_tag fp invAttrs tagName repl c ::
        substitute_tag_list fp invAttrs tagName repl rest := rfl

theorem propagateAttrs_childrenOf (r : Node) (orig : List (Str × Str)) :
    (propagateAttrs r orig).childrenOf = r.childrenOf := by
  rcases r with ⟨n, a, ch⟩ | s | s <;> rfl

theorem countTag_propagateAttrs (tagName : Str) (r : Node)
    (orig : List (Str × Str)) :
    countTag tagName (propagateAttrs r orig) = countTag tagName r := by
  rcases r with ⟨n, a, ch⟩ | s | s <;> rfl

/-- **C9**: `substitute_tag` performs exactly one level of replacement.  A
node named by the loop variable is replaced by the clone of the invocation
child with that clone's children verbatim — `substitute_tag` does not
descend into the replacement, so any loop-variable occurrence nested inside
the substituted invocation child stays unsubstituted.  Every occurrence
outside a replacement is substituted: when the replacement itself contains
no occurrence, none survive anywhere. -/
theorem C9_substitute_tag_one_level (fp : Str) (invAttrs : List (Str × Str))
    (tagName : Str) (repl : Node) :
    (∀ attrs ch,
      (substitute_tag fp invAttrs tagName repl
        (.element tagName attrs ch)).childrenOf = repl.childrenOf) ∧
    (countTag tagName repl = 0 →
      ∀ n, countTag tagName (substitute_tag fp invAttrs tagName repl n) = 0) := by
  constructor
  · intro attrs ch
    rw [substitute_tag_element, if_pos rfl, propagateAttrs_childrenOf]
  · intro hrepl
    have hmut := Node.mutual_induction
      (fun n => countTag tagName (substitute_tag fp invAttrs tagName repl n) = 0)
      (fun l => countTagList tagName (substitute_tag_list fp invAttrs tagName repl l) = 0)
      (fun n a ch ih => by
        dsimp only
        by_cases hn : n = tagName
        · subst hn
          rw [substitute_tag_element, if_pos rfl, countTag_propagateAttrs]
          exact hrepl
        · rw [substitute_tag_element, if_neg hn, countTag]
          simp [hn, ih])
      (fun s => by rfl)
      (fun s => by rfl)
      (by rfl)
      (fun n l ihn ihl => by
        dsimp only
        dsimp only at ihn ihl
        rw [substitute_tag_list_cons, countTagList, ihn, ihl])
    exact hmut.1

/-- Witness for **C9** at concrete inputs: replacing `item` by an
invocation child that itself contains a nested `<item/>` leaves the nested
occurrence intact (one level of replacement), while with an `item`-free
replacement no occurrence survives. -/
theorem C9_substitute_tag_one_level_witness :
    substitute_tag (str "/f") [] (str "item")
      (.element (str "b") [] [.element (str "item") [] []])
      (.element (str "item") [] []) =
      .element (str "b") [] [.element (str "item") [] []] ∧
    countTag (str "item")
      (substitute_tag (str "/f") [] (str "item") (.element (str "span") [] [])
        (.element (str "li") [] [.element (str "item") [] [],
          .element (str "item") [] []])) = 0 := by
  constructor
  · rfl
  · exact (C9_substitute_tag_one_level (str "/f") [] (str "item")
      (.element (str "span") [] [])).2 (by rfl)
      (.element (str "li") [] [.element (str "item") [] [],
        .element (str "item") [] []])

/-- **C10**: the minify pass only removes comments and removes or rewrites
the string content of text nodes.  Every element survives with its tag
name, attributes and the relative order and nesting of all surviving
elements unchanged — the element skeleton of the tree is preserved exactly
— and no comment node survives. -/
theorem C10_minify_frame (hasPrev : Bool) (ch : List Node) :
    skelsOf (minifyList hasPrev ch) = skelsOf ch ∧
    commentCountList (minifyList hasPrev ch) = 0 := by
  have hmut := Node.mutual_induction
    (fun n => ∀ hp hn, (minify hp hn n).bind skelOf = skelOf n ∧
      ((minify hp hn n).map commentCount).getD 0 = 0)
    (fun l => ∀ hp, skelsOf (minifyList hp l) = skelsOf l ∧
      commentCountList (minifyList hp l) = 0)
    (fun n a ch ih => by
      intro hp hn
      constructor
      · simp [minify, skelOf, (ih false).1]
      · simp [minify, commentCount, (ih false).2])
    (fun s => by
      intro hp hn
      constructor
      · rcases h : minifyText hp hn s with _ | t <;> simp [minify, h, skelOf]
      · rcases h : minifyText hp hn s with _ | t <;> simp [minify, h, commentCount])
    (fun s => by
      intro hp hn
      exact ⟨by simp [minify, skelOf], by simp [minify]⟩)
    (fun hp => by simp [minifyList, skelsOf, commentCountList])
    (fun c rest ihn ihl => by
      intro hp
      rcases h : minify hp (!rest.isEmpty) c with _ | c'
      · have hsk : skelOf c = none := by
          have := (ihn hp (!rest.isEmpty)).1
          rw [h] at this
          simpa using this.symm
        constructor
        · rw [minifyList]
          rw [h]
          rw [(ihl hp).1]
          rw [skelsOf, hsk]
        · rw [minifyList]
          rw [h]
          exact (ihl hp).2
      · have hsk : skelOf c' = skelOf c := by
          have := (ihn hp (!rest.isEmpty)).1
          rw [h] at this
          simpa using this
        have hcc : commentCount c' = 0 := by
          have := (ihn hp (!rest.isEmpty)).2
          rw [h] at this
          simpa using this
        constructor
        · rw [minifyList]
          rw [h]
          rw [skelsOf, hsk, (ihl true).1, skelsOf]
        · rw [minifyList]
          rw [h]
          rw [commentCountList, hcc, (ihl true).2])
  exact hmut.2 ch hasPrev

theorem substitute_element_unfold (lib : List (Str × Node)) (names : List Str)
    (fp : Str) (fuel : Nat) (n : Str) (a : List (Str × Str)) (ch : List Node) :
    substitute lib names fp fuel (.element n a ch) =
      (match libGet lib n with
       | some defn =>
           match instantiate names fp defn (.element n a ch) with
           | none => none
           | some inst =>
               match substitute_fixpoint lib names fp fuel ch with
               | none => none
               | some _ => some (inst, true)
       | none =>
           match substitute_fixpoint lib names fp fuel ch with
           | none => none
           | some (ch', changed) => some ([.element n a ch'], changed)) := by
  rw [substitute.eq_def]

theorem substitute_text_unfold (lib : List (Str × Node)) (names : List Str)
    (fp : Str) (fuel : Nat) (s : Str) :
    substitute lib names fp fuel (.text s) = some ([.text s], false) := by
  rw [substitute.eq_def]

theorem substitute_comment_unfold (lib : List (Str × Node)) (names : List Str)
    (fp : Str) (fuel : Nat) (s : Str) :
    substitute lib names fp fuel (.comment s) = some ([.comment s], false) := by
  rw [substitute.eq_def]

theorem substitute_fixpoint_no_change (lib : List (Str × Node)) (names : List Str)
    (fp : Str) (fuel : Nat) (ch ch2 : List Node)
    (h : substitute_scan lib names fp fuel ch = some (ch2, false)) :
    substitute_fixpoint lib names fp fuel ch = some (ch2, false) := by
  rcases fuel with _ | f <;>
    · rw [substitute_fixpoint.eq_def]
      dsimp only
      rw [h]
      simp

theorem substitute_scan_nil (lib : List (Str × Node)) (names : List Str)
    (fp : Str) (fuel : Nat) :
    substitute_scan lib names fp fuel [] = some ([], false) := by
  rw [substitute_scan.eq_def]

theorem substitute_scan_cons (lib : List (Str × Node)) (names : List Str)
    (fp : Str) (fuel : Nat) (c : Node) (rest : List Node) :
    substitute_scan lib names fp fuel (c :: rest) =
      (match substitute lib names fp fuel c with
       | none => none
       | some (out, changed) =>
           if changed then some (out ++ rest, true)
           else
             match substitute_scan lib names fp fuel rest with
             | none => none
             | some (rest', c2) => some (out ++ rest', c2)) := by
  rw [substitute_scan.eq_def]

/-- **C4** (amended): on any tree none of whose element tags has a library
definition — in particular on the engine's own output re-run against a
library in which no tag of the output matches — `substitute` is the
identity and reports no change, for every fuel bound. -/
theorem C4_substitute_no_match_fixed_point (lib : List (Str × Node))
    (names : List Str) (fp : Str) :
    ∀ (n : Node) (fuel : Nat), noLibMatch lib n = true →
      substitute lib names fp fuel n = some ([n], false) := by
  have hmut := Node.mutual_induction
    (fun n => ∀ fuel, noLibMatch lib n = true →
      substitute lib names fp fuel n = some ([n], false))
    (fun l => ∀ fuel, noLibMatchList lib l = true →
      substitute_scan lib names fp fuel l = some (l, false) ∧
      substitute_fixpoint lib names fp fuel l = some (l, false))
    (fun n a ch ih => by
      dsimp only
      intro fuel hnm
      have hnm' : (libGet lib n).isNone = true ∧ noLibMatchList lib ch = true := by
        have : noLibMatch lib (.element n a ch) =
            ((libGet lib n).isNone && noLibMatchList lib ch) := rfl
        rw [this] at hnm
        simpa using hnm
      have hget : libGet lib n = none := Option.isNone_iff_eq_none.mp hnm'.1
      have hfix := (ih fuel hnm'.2).2
      rw [substitute_element_unfold, hget, hfix])
    (fun s => by
      dsimp only
      intro fuel _
      exact substitute_text_unfold lib names fp fuel s)
    (fun s => by
      dsimp only
      intro fuel _
      exact substitute_comment_unfold lib names fp fuel s)
    (fun fuel _ => by
      exact ⟨substitute_scan_nil lib names fp fuel, by
        exact substitute_fixpoint_no_change lib names fp fuel [] []
          (substitute_scan_nil lib names fp fuel)⟩)
    (fun c rest ihn ihl => by
      dsimp only
      dsimp only at ihn ihl
      intro fuel hnm
      have hnm' : noLibMatch lib c = true ∧ noLibMatchList lib rest = true := by
        have : noLibMatchList lib (c :: rest) =
            (noLibMatch lib c && noLibMatchList lib rest) := rfl
        rw [this] at hnm
        simpa using hnm
      have hc := ihn fuel hnm'.1
      have hrest := (ihl fuel hnm'.2).1
      have hscan : substitute_scan lib names fp fuel (c :: rest) =
          some (c :: rest, false) := by
        rw [substitute_scan_cons, hc]
        simp only [Bool.false_eq_true, if_false]
        rw [hrest]
        simp
      exact ⟨hscan,
        substitute_fixpoint_no_change lib names fp fuel (c :: rest) (c :: rest) hscan⟩)
  exact fun n fuel h => hmut.1 n fuel h

/-- Witness for the amended **C4**: a concrete tree whose tags miss a
concrete one-component library is returned unchanged with `changed =
false`. -/
theorem C4_substitute_no_match_fixed_point_witness :
    substitute [(str "card", .element (str "throwaway") [] [])] [] (str "/f") 3
      (.element (str "p") [] [.text (str "x"), .element (str "em") [] []]) =
      some ([.element (str "p") [] [.text (str "x"), .element (str "em") [] []]],
        false) :=
  C4_substitute_no_match_fixed_point
    [(str "card", .element (str "throwaway") [] [])] [] (str "/f")
    (.element (str "p") [] [.text (str "x"), .element (str "em") [] []]) 3
    (by decide)

/-- Counterexample to the second half of **C4** as stated: a document whose
top level is a bare `<if>` element is already at the engine's fixed point
(re-running `substitute` with an empty library reports no change), yet the
output still contains a custom tag — `substitute` only expands library
tags, and `if`/`self.*`/`foreachchild.*` elements outside a component body
survive to the output. -/
theorem C4_custom_tag_remains_counterexample :
    substitute [] [] (str "/f") 0
      (.element (str "if") [(str "self.x", str "a")] []) =
      some ([.element (str "if") [(str "self.x", str "a")] []], false) ∧
    hasCustomTag (.element (str "if") [(str "self.x", str "a")] []) = true := by
  constructor
  · rw [substitute_element_unfold]
    have hget : libGet [] (str "if") = none := rfl
    rw [hget, substitute_fixpoint_no_change [] [] (str "/f") 0 [] []
      (substitute_scan_nil [] [] (str "/f") 0)]
  · rfl

/-- Witness for **C8** at a concrete input: `${a b}` (space in the brace
content) is left verbatim by expansion and produces no warning. -/
theorem C8_unrecognized_expression_verbatim_witness :
    expand_string (str "/f") [] (str "${a b}") = (str "${a b}", []) := by
  have h := C8_unrecognized_expression_verbatim (str "/f") [] (str "a b") []
    ⟨' ', by decide, by decide⟩ (by decide) (by decide)
  rw [expand_string_nil] at h
  exact h
